import Mathlib

/-!
Verification of the two Python scripts of the vaccine-analysis pipeline,
`generate_consensus_translate_msa.py` and `generate_overall_summary.py`,
against their natural-language specification.  The scripts are shallowly
embedded: pure fragments become Lean functions on `List Char`, the file
system becomes explicit `Option` arguments (`none` = missing file),
subprocess outcomes become an explicit record, and Python floats are
modelled exactly by rationals.
-/

/-- Outcome of `subprocess.run`: exit code, captured stdout and stderr. -/
structure CmdResult where
  returncode : Int
  stdout : String
  stderr : String
  deriving DecidableEq, Repr

/-- Embedding of `run_command` (generate_consensus_translate_msa.py, lines
25-33).  The subprocess outcome is passed explicitly; a non-zero exit code
raises `RuntimeError`, modelled as `Except.error` with the message built on
line 32, and a zero exit code returns the captured stdout. -/
def run_command (cmd : String) (result : CmdResult) : Except String String :=
  if result.returncode ≠ 0 then
    Except.error ("Command failed: " ++ cmd)
  else
    Except.ok result.stdout

/-- C3: `run_command` raises an error exactly when the subprocess exit code is
non-zero, and on a zero exit code it returns the captured standard output
unchanged. -/
theorem run_command_error_iff (cmd : String) (r : CmdResult) :
    ((∃ e, run_command cmd r = Except.error e) ↔ r.returncode ≠ 0) ∧
    (r.returncode = 0 → run_command cmd r = Except.ok r.stdout) := by
  by_cases h : r.returncode = 0 <;> simp [run_command, h]

/-- Concrete instance of the `run_command` contract: exit code 0 returns the
captured stdout. -/
theorem run_command_error_iff_witness :
    run_command "ls" ⟨0, "out", ""⟩ = Except.ok "out" :=
  (run_command_error_iff "ls" ⟨0, "out", ""⟩).2 rfl

/-- Embedding of `count_vcf_variants` (generate_overall_summary.py, lines
90-100).  The file system is explicit: `none` means the path does not exist,
`some lines` gives the lines of the file.  The loop counts the lines that do
not start with the header character. -/
def count_vcf_variants (file : Option (List (List Char))) : Nat :=
  match file with
  | none => 0
  | some lines =>
    lines.foldl (fun count line => if line.head? = some '#' then count else count + 1) 0

theorem count_vcf_foldl (lines : List (List Char)) (acc : Nat) :
    lines.foldl (fun count line => if line.head? = some '#' then count else count + 1) acc
      = acc + lines.countP (fun l => decide (l.head? ≠ some '#')) := by
  induction lines generalizing acc with
  | nil => simp
  | cons l t ih =>
    by_cases h : l.head? = some '#' <;>
      simp [List.countP_cons, h, ih, List.foldl_cons] <;> omega

/-- C7: the variant count of an existing file is the number of its lines that
do not start with the `#` header character, and a missing file yields 0
without raising an error. -/
theorem count_vcf_variants_spec (lines : List (List Char)) :
    count_vcf_variants (some lines) = lines.countP (fun l => decide (l.head? ≠ some '#')) ∧
    count_vcf_variants none = 0 := by
  refine ⟨?_, rfl⟩
  show lines.foldl _ 0 = _
  rw [count_vcf_foldl]
  omega

/-- Statistics collected for one sample, the dict built on lines 77-88 of
generate_overall_summary.py. -/
structure SampleStats where
  sampleID : String
  total_reads : Nat
  after_trimmomatic : Nat
  trimmomatic_pct : ℚ
  mapped_reads : Nat
  mapped_pct : ℚ
  properly_paired : Nat
  properly_paired_pct : ℚ
  snp_count : Nat
  indel_count : Nat
  deriving DecidableEq, Repr

/-- Embedding of `collect_sample_data` (generate_overall_summary.py, lines
55-88).  The results of the file parsers (`parse_trimmomatic_log`,
`parse_flagstat_file`, `count_vcf_variants`, each embedded separately) are
passed as arguments; this definition captures the guarded percentage
arithmetic of lines 72-75 and the record of lines 77-88, with Python floats
modelled exactly by rationals. -/
def collect_sample_data (sample_id : String)
    (input_reads trimmed_reads mapped_reads properly_paired : Nat)
    (snp_count indel_count : Nat) : SampleStats :=
  { sampleID := sample_id
    total_reads := input_reads
    after_trimmomatic := trimmed_reads
    trimmomatic_pct :=
      if 0 < input_reads then (trimmed_reads : ℚ) / (input_reads : ℚ) * 100 else 0
    mapped_reads := mapped_reads
    mapped_pct :=
      if 0 < trimmed_reads then (mapped_reads : ℚ) / (trimmed_reads : ℚ) * 100 else 0
    properly_paired := properly_paired
    properly_paired_pct :=
      if 0 < trimmed_reads then (properly_paired : ℚ) / (trimmed_reads : ℚ) * 100 else 0
    snp_count := snp_count
    indel_count := indel_count }

/-- C4: the mapped percentage is mapped reads over post-trimming surviving
reads times 100 when the surviving count is positive and 0 when the surviving
count is 0, and the properly-paired percentage follows the same guarded
rule, so the division is never taken with a zero denominator. -/
theorem collect_sample_data_guarded_pct (sid : String) (ir tr mr pp snp ind : Nat) :
    (tr = 0 → (collect_sample_data sid ir tr mr pp snp ind).mapped_pct = 0 ∧
              (collect_sample_data sid ir tr mr pp snp ind).properly_paired_pct = 0) ∧
    (0 < tr → (collect_sample_data sid ir tr mr pp snp ind).mapped_pct
                  = (mr : ℚ) / (tr : ℚ) * 100 ∧
              (collect_sample_data sid ir tr mr pp snp ind).properly_paired_pct
                  = (pp : ℚ) / (tr : ℚ) * 100) := by
  constructor
  · intro h; subst h; simp [collect_sample_data]
  · intro h; simp [collect_sample_data, h]

/-- Concrete instance of the guarded percentage rule at a positive
denominator. -/
theorem collect_sample_data_guarded_pct_witness :
    (collect_sample_data "S1" 10 4 3 2 1 0).mapped_pct = ((3 : Nat) : ℚ) / ((4 : Nat) : ℚ) * 100 ∧
    (collect_sample_data "S1" 10 4 3 2 1 0).properly_paired_pct
        = ((2 : Nat) : ℚ) / ((4 : Nat) : ℚ) * 100 :=
  (collect_sample_data_guarded_pct "S1" 10 4 3 2 1 0).2 (by norm_num)

/-- The AVERAGE row appended to the summary table. -/
structure SummaryRow where
  n : Nat
  avg_total_reads : ℚ
  avg_after_trimmomatic : ℚ
  avg_trimmomatic_pct : ℚ
  avg_properly_paired : ℚ
  avg_properly_paired_pct : ℚ
  avg_mapped_reads : ℚ
  avg_mapped_pct : ℚ
  avg_snp : ℚ
  avg_indel : ℚ
  total_snp : Nat
  total_indel : Nat
  deriving DecidableEq, Repr

/-- `pandas` `Series.mean`: the running sum of the entries divided by their
number. -/
def pandasMean (xs : List ℚ) : ℚ :=
  xs.foldl (fun a b => a + b) 0 / (xs.length : ℚ)

/-- Embedding of the AVERAGE summary row (generate_overall_summary.py, lines
144-156): column means via `pandas` `.mean()` and SNP/INDEL totals via
`.sum()`, over the list `all_data` of successfully collected samples. -/
def summary_row (all_data : List SampleStats) : SummaryRow :=
  { n := all_data.length
    avg_total_reads := pandasMean (all_data.map (fun x => (x.total_reads : ℚ)))
    avg_after_trimmomatic := pandasMean (all_data.map (fun x => (x.after_trimmomatic : ℚ)))
    avg_trimmomatic_pct := pandasMean (all_data.map (fun x => x.trimmomatic_pct))
    avg_properly_paired := pandasMean (all_data.map (fun x => (x.properly_paired : ℚ)))
    avg_properly_paired_pct := pandasMean (all_data.map (fun x => x.properly_paired_pct))
    avg_mapped_reads := pandasMean (all_data.map (fun x => (x.mapped_reads : ℚ)))
    avg_mapped_pct := pandasMean (all_data.map (fun x => x.mapped_pct))
    avg_snp := pandasMean (all_data.map (fun x => (x.snp_count : ℚ)))
    avg_indel := pandasMean (all_data.map (fun x => (x.indel_count : ℚ)))
    total_snp := (all_data.map (fun x => x.snp_count)).foldl (fun a b => a + b) 0
    total_indel := (all_data.map (fun x => x.indel_count)).foldl (fun a b => a + b) 0 }

/-- Arithmetic mean of a column, as in the claim: the sum of the column over
the collected samples divided by the number of collected samples. -/
def arithMean (xs : List ℚ) : ℚ := xs.sum / (xs.length : ℚ)

theorem foldl_add_eq_sum {M : Type} [AddCommMonoid M] (l : List M) (a : M) :
    l.foldl (fun x y => x + y) a = a + l.sum := by
  induction l generalizing a with
  | nil => simp
  | cons x t ih => simp [ih, add_assoc]

/-- C5: for a non-empty collection every AVERAGE-row value is the arithmetic
mean of its column over exactly the successfully collected samples, and the
SNP/INDEL totals are the sums over those samples. -/
theorem summary_row_means (d : List SampleStats) (h : d ≠ []) :
    (summary_row d).n = d.length ∧
    (summary_row d).avg_total_reads = arithMean (d.map (fun x => (x.total_reads : ℚ))) ∧
    (summary_row d).avg_after_trimmomatic
        = arithMean (d.map (fun x => (x.after_trimmomatic : ℚ))) ∧
    (summary_row d).avg_trimmomatic_pct = arithMean (d.map (fun x => x.trimmomatic_pct)) ∧
    (summary_row d).avg_properly_paired
        = arithMean (d.map (fun x => (x.properly_paired : ℚ))) ∧
    (summary_row d).avg_properly_paired_pct
        = arithMean (d.map (fun x => x.properly_paired_pct)) ∧
    (summary_row d).avg_mapped_reads = arithMean (d.map (fun x => (x.mapped_reads : ℚ))) ∧
    (summary_row d).avg_mapped_pct = arithMean (d.map (fun x => x.mapped_pct)) ∧
    (summary_row d).avg_snp = arithMean (d.map (fun x => (x.snp_count : ℚ))) ∧
    (summary_row d).avg_indel = arithMean (d.map (fun x => (x.indel_count : ℚ))) ∧
    (summary_row d).total_snp = (d.map (fun x => x.snp_count)).sum ∧
    (summary_row d).total_indel = (d.map (fun x => x.indel_count)).sum := by
  refine ⟨rfl, ?_, ?_, ?_, ?_, ?_, ?_, ?_, ?_, ?_, ?_, ?_⟩ <;>
    simp [summary_row, pandasMean, arithMean, foldl_add_eq_sum]

/-- A concrete collected sample used to instantiate the AVERAGE-row theorem. -/
def sampleA : SampleStats := ⟨"A", 100, 80, 80, 60, 75, 50, 62, 3, 1⟩

/-- Concrete instance of the AVERAGE-row theorem on a one-sample collection. -/
theorem summary_row_means_witness :
    (summary_row [sampleA]).n = [sampleA].length ∧
    (summary_row [sampleA]).avg_total_reads
        = arithMean ([sampleA].map (fun x => (x.total_reads : ℚ))) ∧
    (summary_row [sampleA]).avg_after_trimmomatic
        = arithMean ([sampleA].map (fun x => (x.after_trimmomatic : ℚ))) ∧
    (summary_row [sampleA]).avg_trimmomatic_pct
        = arithMean ([sampleA].map (fun x => x.trimmomatic_pct)) ∧
    (summary_row [sampleA]).avg_properly_paired
        = arithMean ([sampleA].map (fun x => (x.properly_paired : ℚ))) ∧
    (summary_row [sampleA]).avg_properly_paired_pct
        = arithMean ([sampleA].map (fun x => x.properly_paired_pct)) ∧
    (summary_row [sampleA]).avg_mapped_reads
        = arithMean ([sampleA].map (fun x => (x.mapped_reads : ℚ))) ∧
    (summary_row [sampleA]).avg_mapped_pct
        = arithMean ([sampleA].map (fun x => x.mapped_pct)) ∧
    (summary_row [sampleA]).avg_snp
        = arithMean ([sampleA].map (fun x => (x.snp_count : ℚ))) ∧
    (summary_row [sampleA]).avg_indel
        = arithMean ([sampleA].map (fun x => (x.indel_count : ℚ))) ∧
    (summary_row [sampleA]).total_snp = ([sampleA].map (fun x => x.snp_count)).sum ∧
    (summary_row [sampleA]).total_indel = ([sampleA].map (fun x => x.indel_count)).sum :=
  summary_row_means [sampleA] (by simp)

/-- Greedy capture of the digit group of the pattern right after the literal
part matched at position `p` of `content`. -/
def digitsAfter (lit content : List Char) (p : Nat) : List Char :=
  (content.drop (p + lit.length)).takeWhile Char.isDigit

/-- One scan step of `re.search` for a pattern made of a literal followed by
a digit group: does the pattern match starting at position `p` of `content`
(the literal, then at least one digit)? -/
def patHitAt (lit content : List Char) (p : Nat) : Bool :=
  List.isPrefixOf lit (content.drop p) && !((digitsAfter lit content p).isEmpty)

/-- Left-to-right scan of `re.search`: the first position in the interval
from `p` of length `fuel` where the test holds. -/
def findFirstFrom (f : Nat → Bool) : Nat → Nat → Option Nat
  | _, 0 => none
  | p, Nat.succ fuel => if f p then some p else findFirstFrom f (p + 1) fuel

/-- Numeric value of a decimal digit string, as Python `int`. -/
def digitsToNat (ds : List Char) : Nat :=
  ds.foldl (fun n c => n * 10 + (c.toNat - 48)) 0

/-- `re.search` for a literal followed by a captured digit group: the number
captured at the leftmost matching position, `none` when no position of
`content` matches. -/
def reSearchNum (lit content : List Char) : Option Nat :=
  (findFirstFrom (patHitAt lit content) 0 content.length).map
    (fun p => digitsToNat (digitsAfter lit content p))

/-- Literal part of the first Trimmomatic pattern of line 25. -/
def inputReadPairsLit : List Char := "Input Read Pairs: ".toList

/-- Literal part of the second Trimmomatic pattern of line 26. -/
def bothSurvivingLit : List Char := "Both Surviving: ".toList

/-- Embedding of `parse_trimmomatic_log` (generate_overall_summary.py, lines
17-32): a missing file gives `(0, 0)`; otherwise each regex capture (0 when
the pattern does not match) is doubled to convert read pairs to reads. -/
def parse_trimmomatic_log (log : Option (List Char)) : Nat × Nat :=
  match log with
  | none => (0, 0)
  | some content =>
    ((reSearchNum inputReadPairsLit content).getD 0 * 2,
     (reSearchNum bothSurvivingLit content).getD 0 * 2)

/-- Claim-side description of the regex result: `n` is the number captured at
the leftmost position of `content` where the pattern (literal followed by at
least one digit) matches, or 0 when the pattern matches nowhere. -/
def firstCapture (lit content : List Char) (n : Nat) : Prop :=
  (∃ p, patHitAt lit content p = true ∧ (∀ q, q < p → patHitAt lit content q = false) ∧
      n = digitsToNat (digitsAfter lit content p)) ∨
  ((∀ p, p < content.length → patHitAt lit content p = false) ∧ n = 0)

theorem patHitAt_lt (lit content : List Char) (p : Nat)
    (h : patHitAt lit content p = true) : p < content.length := by
  rw [patHitAt, Bool.and_eq_true] at h
  have h2 := h.2
  by_contra hge
  have hdrop : content.drop (p + lit.length) = [] := by
    apply List.drop_eq_nil_of_le
    omega
  rw [digitsAfter, hdrop] at h2
  simp at h2

theorem findFirstFrom_eq_some (f : Nat → Bool) (k p q : Nat)
    (h1 : f q = true) (h2 : p ≤ q) (h3 : q < p + k)
    (h4 : ∀ r, p ≤ r → r < q → f r = false) :
    findFirstFrom f p k = some q := by
  induction k generalizing p with
  | zero => omega
  | succ k ih =>
    rw [findFirstFrom]
    by_cases hp : f p = true
    · have hpq : p = q := by
        by_contra hne
        have hlt : p < q := by omega
        have := h4 p (le_refl p) hlt
        rw [hp] at this
        exact Bool.true_eq_false.mp this
      subst hpq
      rw [hp]
      simp
    · have hpf : f p = false := by
        cases hf : f p
        · rfl
        · exact absurd hf hp
      have hpq : p < q := by
        rcases Nat.lt_or_ge p q with hc | hc
        · exact hc
        · have : p = q := by omega
          rw [this] at hpf
          rw [h1] at hpf
          exact absurd hpf (by simp)
      rw [hpf]
      simp only [Bool.false_eq_true, if_false]
      exact ih (p + 1) (by omega) (by omega) (fun r hr1 hr2 => h4 r (by omega) hr2)

theorem findFirstFrom_eq_none (f : Nat → Bool) (k p : Nat)
    (h : ∀ r, p ≤ r → r < p + k → f r = false) :
    findFirstFrom f p k = none := by
  induction k generalizing p with
  | zero => rfl
  | succ k ih =>
    rw [findFirstFrom]
    have hp := h p (le_refl p) (by omega)
    rw [hp]
    simp only [Bool.false_eq_true, if_false]
    exact ih (p + 1) (fun r hr1 hr2 => h r (by omega) (by omega))

/-- C6: the per-sample read counts are exactly twice the pair counts captured
by the leftmost matches of the two Trimmomatic patterns in the log, a pattern
that does not match contributing a count of 0. -/
theorem parse_trimmomatic_log_counts (content : List Char) (a b : Nat)
    (ha : firstCapture inputReadPairsLit content a)
    (hb : firstCapture bothSurvivingLit content b) :
    parse_trimmomatic_log (some content) = (a * 2, b * 2) := by
  have key : ∀ lit n, firstCapture lit content n → (reSearchNum lit content).getD 0 = n := by
    intro lit n hn
    rcases hn with ⟨p, hp, hfirst, hval⟩ | ⟨hnone, hz⟩
    · have hplen : p < content.length := patHitAt_lt lit content p hp
      rw [reSearchNum,
        findFirstFrom_eq_some (patHitAt lit content) content.length 0 p hp (Nat.zero_le p)
          (by omega) (fun r _ hr => hfirst r hr)]
      simp [hval]
    · rw [reSearchNum,
        findFirstFrom_eq_none (patHitAt lit content) content.length 0
          (fun r _ hr => hnone r (by omega))]
      simp [hz]
  show ((reSearchNum inputReadPairsLit content).getD 0 * 2,
        (reSearchNum bothSurvivingLit content).getD 0 * 2) = (a * 2, b * 2)
  rw [key inputReadPairsLit a ha, key bothSurvivingLit b hb]

/-- A concrete Trimmomatic log line used to instantiate the C6 theorem. -/
def trimLogSample : List Char := "Input Read Pairs: 7 Both Surviving: 6".toList

/-- Concrete instance of the Trimmomatic parsing theorem: 7 input pairs and 6
surviving pairs give 14 and 12 reads. -/
theorem parse_trimmomatic_log_counts_witness :
    parse_trimmomatic_log (some trimLogSample) = (7 * 2, 6 * 2) :=
  parse_trimmomatic_log_counts trimLogSample 7 6
    (Or.inl ⟨0, by decide, fun q hq => absurd hq (Nat.not_lt_zero q), by decide⟩)
    (Or.inl ⟨20, by decide, by decide, by decide⟩)

/-- One row of the differences table built on lines 265-271. -/
structure DiffEntry where
  position : Nat
  reference_aa : Char
  consensus_aa : Char
  change : String
  type : String
  deriving DecidableEq, Repr

/-- Build one difference row as on lines 265-271 of the source: 1-based
position, the two characters, the change label, and the Substitution/Indel
typing by the gap symbol. -/
def mkDiffEntry (pos : Nat) (r c : Char) : DiffEntry :=
  { position := pos + 1
    reference_aa := r
    consensus_aa := c
    change := String.singleton r ++ Nat.repr (pos + 1) ++ String.singleton c
    type := if r ≠ '-' ∧ c ≠ '-' then "Substitution" else "Indel" }

/-- The scan of lines 259-271: walk the reference row, fetching the consensus
character at the same column; `none` reports an out-of-range consensus access
(a Python `IndexError`). -/
def analyzeDiffsAux (cons : List Char) : List Char → Nat → Option (List DiffEntry)
  | [], _ => some []
  | r :: rs, pos =>
    match cons.get? pos with
    | none => none
    | some c =>
      match analyzeDiffsAux cons rs (pos + 1) with
      | none => none
      | some rest => some (if r ≠ c then mkDiffEntry pos r c :: rest else rest)

/-- Embedding of the difference computation of `analyze_alignment_differences`
(generate_consensus_translate_msa.py, lines 229-288), once the reference row
`ref` and the consensus row `cons` of the alignment have been identified. -/
def analyze_alignment_differences (ref cons : List Char) : Option (List DiffEntry) :=
  analyzeDiffsAux cons ref 0

/-- Claim-side difference table: the columns of the aligned pair are
enumerated from 0 and one row is kept per column at which the two characters
differ; the row carries the 1-based column index and is typed Substitution
exactly when neither character is the gap symbol, Indel otherwise. -/
def diffTableSpec (ref cons : List Char) : List DiffEntry :=
  (List.enumFrom 0 (ref.zip cons)).filterMap (fun e =>
    if e.2.1 ≠ e.2.2 then some (mkDiffEntry e.1 e.2.1 e.2.2) else none)

theorem analyzeDiffsAux_eq (cons : List Char) :
    ∀ (ref : List Char) (pos : Nat), pos + ref.length ≤ cons.length →
    analyzeDiffsAux cons ref pos =
      some ((List.enumFrom pos (ref.zip (cons.drop pos))).filterMap (fun e =>
        if e.2.1 ≠ e.2.2 then some (mkDiffEntry e.1 e.2.1 e.2.2) else none)) := by
  intro ref
  induction ref with
  | nil => intro pos h; simp [analyzeDiffsAux, List.enumFrom]
  | cons r rs ih =>
    intro pos h
    have hlen : pos < cons.length := by
      simp only [List.length_cons] at h
      omega
    have hdrop : cons.drop pos = cons[pos] :: cons.drop (pos + 1) :=
      List.drop_eq_getElem_cons hlen
    have hc : cons.get? pos = some cons[pos] := by
      rw [List.get?_eq_getElem?]
      exact List.getElem?_eq_getElem hlen
    have hih := ih (pos + 1) (by simp only [List.length_cons] at h; omega)
    rw [analyzeDiffsAux, hc, hih, hdrop, List.zip_cons_cons]
    simp only [List.enumFrom]
    rw [List.filterMap_cons]
    dsimp only
    by_cases hrc : r = cons[pos]
    · simp [hrc]
    · simp [hrc]

/-- C2: for equal-length aligned rows (reference first, consensus second) the
computed difference table is exactly the claim-side table: one entry per
differing column, with 1-based Position and the Substitution/Indel typing by
the gap symbol. -/
theorem analyze_alignment_differences_table (ref cons : List Char)
    (h : ref.length = cons.length) :
    analyze_alignment_differences ref cons = some (diffTableSpec ref cons) := by
  rw [analyze_alignment_differences, analyzeDiffsAux_eq cons ref 0 (by omega), diffTableSpec]
  simp only [List.drop_zero]

/-- Concrete instance of the difference-table theorem on a pair of aligned
rows of length 3 with one substitution and one indel column. -/
theorem analyze_alignment_differences_table_witness :
    analyze_alignment_differences ['A', 'B', '-'] ['A', '-', 'C']
      = some (diffTableSpec ['A', 'B', '-'] ['A', '-', 'C']) :=
  analyze_alignment_differences_table ['A', 'B', '-'] ['A', '-', 'C'] rfl

/-- C9: when the consensus row is at least as long as the reference row (as in
any well-formed alignment) every consensus access of the scan is in bounds and
a table is returned, and without that precondition some input drives the
access out of bounds. -/
theorem analyze_alignment_differences_safety :
    (∀ ref cons : List Char, ref.length ≤ cons.length →
        analyze_alignment_differences ref cons ≠ none) ∧
    (∃ ref cons : List Char, analyze_alignment_differences ref cons = none) := by
  constructor
  · intro ref cons h
    rw [analyze_alignment_differences, analyzeDiffsAux_eq cons ref 0 (by omega)]
    simp
  · exact ⟨['A'], [], rfl⟩

/-- Concrete instance of the in-bounds half of the safety theorem. -/
theorem analyze_alignment_differences_safety_witness :
    analyze_alignment_differences ['A'] ['B', 'C'] ≠ none :=
  analyze_alignment_differences_safety.1 ['A'] ['B', 'C'] (by decide)

/-- A FASTA record as in Biopython `SeqRecord`: id, description and
sequence. -/
structure SeqRec where
  id : List Char
  description : List Char
  seqData : List Char
  deriving DecidableEq, Repr

/-- Python `in` on uppercased strings (line 104): case-insensitive substring
test. -/
def containsCI (hay needle : List Char) : Bool :=
  (List.range (hay.length + 1)).any (fun p =>
    List.isPrefixOf (needle.map Char.toUpper) ((hay.map Char.toUpper).drop p))

/-- Header test of line 104: the requested name occurs in the record id or in
its description, case-insensitively. -/
def headerMatches (r : SeqRec) (name : List Char) : Bool :=
  containsCI r.id name || containsCI r.description name

/-- Python dict assignment: update the value in place when the key is already
present, append the pair otherwise (insertion order preserved). -/
def dictInsert (d : List (List Char × SeqRec)) (k : List Char) (v : SeqRec) :
    List (List Char × SeqRec) :=
  if d.any (fun e => e.1 == k) then
    d.map (fun e => if e.1 == k then (k, v) else e)
  else d ++ [(k, v)]

/-- Python dict lookup. -/
def dictFind (d : List (List Char × SeqRec)) (k : List Char) : Option SeqRec :=
  (d.find? (fun e => e.1 == k)).map (fun e => e.2)

/-- Embedding of `extract_segments` (generate_consensus_translate_msa.py,
lines 86-112): with no requested names every record is inserted into the dict
keyed by its id; otherwise each requested name is bound to the first record
whose header matches it, a name without a match inserting nothing. -/
def extract_segments (records : List SeqRec) (segment_names : List (List Char)) :
    List (List Char × SeqRec) :=
  if segment_names.isEmpty then
    records.foldl (fun d r => dictInsert d r.id r) []
  else
    segment_names.foldl (fun d name =>
      match records.find? (fun r => headerMatches r name) with
      | some r => dictInsert d name r
      | none => d) []

theorem find_map_update (t : List (List Char × SeqRec)) (k : List Char) (v : SeqRec)
    (h : t.any (fun e => e.1 == k) = true) :
    (t.map (fun e => if e.1 == k then (k, v) else e)).find? (fun e => e.1 == k)
      = some (k, v) := by
  induction t with
  | nil => simp at h
  | cons e t ih =>
    rw [List.any_cons, Bool.or_eq_true] at h
    rw [List.map_cons]
    by_cases he : (e.1 == k) = true
    · rw [if_pos he]
      exact List.find?_cons_of_pos _ (by simp)
    · rw [if_neg he, List.find?_cons_of_neg _ (by simpa using he)]
      apply ih
      rcases h with h1 | h1
      · exact absurd h1 he
      · exact h1

theorem find_map_update_other (t : List (List Char × SeqRec)) (k q : List Char) (v : SeqRec)
    (hk : (k == q) = false) :
    (t.map (fun e => if e.1 == k then (k, v) else e)).find? (fun e => e.1 == q)
      = t.find? (fun e => e.1 == q) := by
  induction t with
  | nil => rfl
  | cons e t ih =>
    rw [List.map_cons]
    by_cases he : (e.1 == k) = true
    · have he' : e.1 = k := eq_of_beq he
      rw [if_pos he, List.find?_cons_of_neg _ (by simp [hk]),
        List.find?_cons_of_neg _ (by simp [he', hk]), ih]
    · rw [if_neg he]
      by_cases hq : (e.1 == q) = true
      · rw [@List.find?_cons_of_pos _ (fun x => x.1 == q) e _ hq,
            @List.find?_cons_of_pos _ (fun x => x.1 == q) e _ hq]
      · rw [@List.find?_cons_of_neg _ (fun x => x.1 == q) e _ hq,
            @List.find?_cons_of_neg _ (fun x => x.1 == q) e _ hq, ih]

theorem dictFind_insert_self (d : List (List Char × SeqRec)) (k : List Char) (v : SeqRec) :
    dictFind (dictInsert d k v) k = some v := by
  rw [dictInsert]
  by_cases hany : d.any (fun e => e.1 == k) = true
  · rw [if_pos hany, dictFind, find_map_update d k v hany]
    rfl
  · rw [if_neg hany, dictFind]
    have hnone : d.find? (fun e => e.1 == k) = none :=
      List.find?_eq_none.mpr (fun x hx hpx => hany (List.any_eq_true.mpr ⟨x, hx, hpx⟩))
    rw [List.find?_append, hnone, Option.none_or]
    simp

theorem dictFind_insert_other (d : List (List Char × SeqRec)) (k q : List Char) (v : SeqRec)
    (h : q ≠ k) :
    dictFind (dictInsert d k v) q = dictFind d q := by
  have hk : (k == q) = false := beq_eq_false_iff_ne.mpr (fun hkq => h hkq.symm)
  rw [dictInsert]
  by_cases hany : d.any (fun e => e.1 == k) = true
  · rw [if_pos hany, dictFind, find_map_update_other d k q v hk, dictFind]
  · rw [if_neg hany, dictFind, List.find?_append, dictFind]
    have hlast : ([(k, v)].find? (fun e => e.1 == q)) = none := by simp [hk]
    rw [hlast, Option.or_none]

theorem fold_insert_lookup (records : List SeqRec) :
    ∀ (d : List (List Char × SeqRec)) (k : List Char),
    dictFind (records.foldl (fun d r => dictInsert d r.id r) d) k =
      (records.reverse.find? (fun r => r.id == k)).or (dictFind d k) := by
  induction records with
  | nil => intro d k; simp
  | cons r t ih =>
    intro d k
    rw [List.foldl_cons, ih, List.reverse_cons, List.find?_append]
    cases hf : t.reverse.find? (fun x => x.id == k) with
    | some a => simp [Option.or_some]
    | none =>
      simp only [Option.none_or]
      by_cases hrk : (r.id == k) = true
      · have hk : r.id = k := eq_of_beq hrk
        subst hk
        rw [dictFind_insert_self]
        simp [hrk]
      · have hne : k ≠ r.id := fun he => by
          rw [he] at hrk
          exact hrk (by simp)
        rw [dictFind_insert_other d r.id k r hne]
        have : ([r].find? (fun x => x.id == k)) = none := by
          simp only [List.find?_singleton]
          simp [hrk]
        rw [this, Option.none_or]

theorem fold_named_lookup (records : List SeqRec) (names : List (List Char)) :
    ∀ (d : List (List Char × SeqRec)) (k : List Char),
    dictFind (names.foldl (fun d name =>
        match records.find? (fun r => headerMatches r name) with
        | some r => dictInsert d name r
        | none => d) d) k =
      (if k ∈ names then
        (records.find? (fun r => headerMatches r k)).or (dictFind d k)
      else dictFind d k) := by
  induction names with
  | nil => intro d k; simp
  | cons n t ih =>
    intro d k
    rw [List.foldl_cons, ih]
    by_cases hkt : k ∈ t
    · rw [if_pos hkt, if_pos (List.mem_cons_of_mem n hkt)]
      cases hf : records.find? (fun r => headerMatches r k) with
      | some a => rw [Option.or_some, Option.or_some]
      | none =>
        rw [Option.none_or, Option.none_or]
        by_cases hnk : n = k
        · subst hnk
          simp only [hf]
        · cases hg : records.find? (fun r => headerMatches r n) with
          | some r =>
            simp only [hg]
            exact dictFind_insert_other d n k r (Ne.symm hnk)
          | none => simp only [hg]
    · rw [if_neg hkt]
      by_cases hnk : k = n
      · subst hnk
        rw [if_pos (List.mem_cons_self k t)]
        cases hg : records.find? (fun r => headerMatches r k) with
        | some r =>
          simp only [hg, Option.or_some]
          exact dictFind_insert_self d k r
        | none => simp only [hg, Option.none_or]
      · have hmem : k ∉ n :: t := by
          intro hm
          rcases List.mem_cons.mp hm with h1 | h1
          · exact hnk h1
          · exact hkt h1
        rw [if_neg hmem]
        cases hg : records.find? (fun r => headerMatches r n) with
        | some r =>
          simp only [hg]
          exact dictFind_insert_other d n k r hnk
        | none => simp only [hg]

theorem find_of_split {α : Type} (l1 l2 : List α) (a : α) (p : α → Bool)
    (h1 : ∀ x ∈ l1, p x = false) (h2 : p a = true) :
    (l1 ++ a :: l2).find? p = some a := by
  rw [List.find?_append]
  have hnone : l1.find? p = none :=
    List.find?_eq_none.mpr (fun x hx => by simp [h1 x hx])
  rw [hnone, Option.none_or, List.find?_cons_of_pos _ h2]

/-- C8 (amended): a requested name is mapped to the first record whose id or
description contains it case-insensitively and is absent when no record
matches; with no requested names, every record id of the file is a key,
mapped to the last record in file order bearing that id (records sharing an
id collapse to the last one). -/
theorem extract_segments_amended (records : List SeqRec) (names : List (List Char)) :
    (names ≠ [] → ∀ name ∈ names, ∀ l1 l2 r, records = l1 ++ r :: l2 →
        headerMatches r name = true → (∀ x ∈ l1, headerMatches x name = false) →
        dictFind (extract_segments records names) name = some r) ∧
    (names ≠ [] → ∀ name ∈ names, (∀ x ∈ records, headerMatches x name = false) →
        dictFind (extract_segments records names) name = none) ∧
    (∀ l1 l2 r, records = l1 ++ r :: l2 → (∀ x ∈ l2, x.id ≠ r.id) →
        dictFind (extract_segments records []) r.id = some r) ∧
    (∀ r ∈ records, (dictFind (extract_segments records []) r.id).isSome = true) := by
  have hempty : extract_segments records [] =
      records.foldl (fun d r => dictInsert d r.id r) [] := by
    rfl
  have hnonempty : names ≠ [] → extract_segments records names =
      names.foldl (fun d name =>
        match records.find? (fun r => headerMatches r name) with
        | some r => dictInsert d name r
        | none => d) [] := by
    intro hne
    have hcond : names.isEmpty = false := by
      cases names with
      | nil => exact absurd rfl hne
      | cons a t => rfl
    rw [extract_segments, hcond]
    simp
  refine ⟨?_, ?_, ?_, ?_⟩
  · intro hne name hmem l1 l2 r hrec hmatch hfirst
    rw [hnonempty hne, fold_named_lookup records names [] name, if_pos hmem, hrec,
      find_of_split l1 l2 r _ hfirst hmatch, Option.or_some]
  · intro hne name hmem hnomatch
    rw [hnonempty hne, fold_named_lookup records names [] name, if_pos hmem]
    have hfnone : records.find? (fun r => headerMatches r name) = none :=
      List.find?_eq_none.mpr (fun x hx => by simp [hnomatch x hx])
    rw [hfnone, Option.none_or]
    rfl
  · intro l1 l2 r hrec hlast
    rw [hempty, fold_insert_lookup records [] r.id, hrec]
    have hrev : (l1 ++ r :: l2).reverse = l2.reverse ++ r :: l1.reverse := by
      simp [List.reverse_append]
    rw [hrev, find_of_split l2.reverse l1.reverse r _ ?hall (by simp), Option.or_some]
    case hall =>
      intro x hx
      have hm : x ∈ l2 := List.mem_reverse.mp hx
      have hne := hlast x hm
      simp [hne]
  · intro r hr
    rw [hempty, fold_insert_lookup records [] r.id]
    cases hf : records.reverse.find? (fun x => x.id == r.id) with
    | some a => simp
    | none =>
      exfalso
      have hc := List.find?_eq_none.mp hf r (List.mem_reverse.mpr hr)
      simp at hc

/-- A record whose id reads HA, used to instantiate the `extract_segments`
theorem. -/
def recHA : SeqRec := ⟨['H', 'A'], [], ['A', 'T', 'G']⟩

/-- A record whose id reads NA, used to instantiate the `extract_segments`
theorem. -/
def recNA : SeqRec := ⟨['N', 'A'], [], ['C']⟩

/-- Concrete instance of the amended `extract_segments` theorem: requesting
the lowercase name ha returns the first record whose header contains it. -/
theorem extract_segments_amended_witness :
    dictFind (extract_segments [recHA, recNA] [['h', 'a']]) ['h', 'a'] = some recHA :=
  (extract_segments_amended [recHA, recNA] [['h', 'a']]).1 (by decide)
    ['h', 'a'] (by decide) [] [recNA] recHA rfl (by decide) (by simp)

/-- First of two records sharing the id A. -/
def recDup1 : SeqRec := ⟨['A'], [], ['C']⟩

/-- Second of two records sharing the id A, with a different sequence. -/
def recDup2 : SeqRec := ⟨['A'], [], ['G']⟩

/-- C8 counterexample: with no requested names and two records sharing an id,
the dict keeps only the later record, so not every record of the file is
returned. -/
theorem extract_segments_dup_id_cex :
    extract_segments [recDup1, recDup2] [] = [(['A'], recDup2)] ∧
    recDup1 ≠ recDup2 ∧
    (∀ e ∈ extract_segments [recDup1, recDup2] [], e.2 ≠ recDup1) := by decide

/-- Python `str.upper` over the characters of the sequence (line 118). -/
def pyUpper (s : List Char) : List Char := s.map Char.toUpper

/-- The slice test of lines 123-124: does the three-character slice of `s` at
position `i` read ATG? -/
def atgAt (s : List Char) (i : Nat) : Bool :=
  (s.drop i).take 3 == ['A', 'T', 'G']

/-- Trim a sequence to a whole number of codons (line 128). -/
def trim3 (s : List Char) : List Char := s.take (s.length - s.length % 3)

/-- Standard genetic code (NCBI table 1) as used by Biopython translate with
`to_stop=False`; stop codons read the asterisk. -/
def codonMap : List (List Char × Char) := [
  (['T','T','T'], 'F'), (['T','T','C'], 'F'), (['T','T','A'], 'L'), (['T','T','G'], 'L'),
  (['C','T','T'], 'L'), (['C','T','C'], 'L'), (['C','T','A'], 'L'), (['C','T','G'], 'L'),
  (['A','T','T'], 'I'), (['A','T','C'], 'I'), (['A','T','A'], 'I'), (['A','T','G'], 'M'),
  (['G','T','T'], 'V'), (['G','T','C'], 'V'), (['G','T','A'], 'V'), (['G','T','G'], 'V'),
  (['T','C','T'], 'S'), (['T','C','C'], 'S'), (['T','C','A'], 'S'), (['T','C','G'], 'S'),
  (['C','C','T'], 'P'), (['C','C','C'], 'P'), (['C','C','A'], 'P'), (['C','C','G'], 'P'),
  (['A','C','T'], 'T'), (['A','C','C'], 'T'), (['A','C','A'], 'T'), (['A','C','G'], 'T'),
  (['G','C','T'], 'A'), (['G','C','C'], 'A'), (['G','C','A'], 'A'), (['G','C','G'], 'A'),
  (['T','A','T'], 'Y'), (['T','A','C'], 'Y'), (['T','A','A'], '*'), (['T','A','G'], '*'),
  (['C','A','T'], 'H'), (['C','A','C'], 'H'), (['C','A','A'], 'Q'), (['C','A','G'], 'Q'),
  (['A','A','T'], 'N'), (['A','A','C'], 'N'), (['A','A','A'], 'K'), (['A','A','G'], 'K'),
  (['G','A','T'], 'D'), (['G','A','C'], 'D'), (['G','A','A'], 'E'), (['G','A','G'], 'E'),
  (['T','G','T'], 'C'), (['T','G','C'], 'C'), (['T','G','A'], '*'), (['T','G','G'], 'W'),
  (['C','G','T'], 'R'), (['C','G','C'], 'R'), (['C','G','A'], 'R'), (['C','G','G'], 'R'),
  (['A','G','T'], 'S'), (['A','G','C'], 'S'), (['A','G','A'], 'R'), (['A','G','G'], 'R'),
  (['G','G','T'], 'G'), (['G','G','C'], 'G'), (['G','G','A'], 'G'), (['G','G','G'], 'G')]

/-- Translate one codon; codons outside the standard table (IUPAC ambiguity
codes) read X, following Biopython on ambiguous codons. -/
def translateCodon (c : List Char) : Char :=
  match codonMap.find? (fun e => e.1 == c) with
  | some e => e.2
  | none => 'X'

/-- Biopython `Seq.translate` with `to_stop=False`: one amino acid per codon,
any trailing partial codon ignored. -/
def dnaTranslate : List Char → List Char
  | a :: b :: c :: rest => translateCodon [a, b, c] :: dnaTranslate rest
  | _ => []

/-- Indices scanned by the inner loop of line 122 for a given frame:
Python `range(frame, len(sequence) - 2, 3)`. -/
def frameIdx (n frame : Nat) : List Nat :=
  (List.range n).filter (fun i => i % 3 == frame && decide (i + 2 < n))

/-- The two nested loops of lines 121-132 visit frames 0, 1, 2 in order. -/
def candidateIdx (n : Nat) : List Nat :=
  frameIdx n 0 ++ frameIdx n 1 ++ frameIdx n 2

/-- The test of lines 123-130: the slice at `i` reads ATG and the suffix from
`i`, trimmed to whole codons, is at least one codon long. -/
def isATGhit (s : List Char) (i : Nat) : Bool :=
  atgAt s i && decide (3 ≤ (s.length - i) - (s.length - i) % 3)

/-- Embedding of `find_first_orf` (generate_consensus_translate_msa.py, lines
114-141): the uppercased sequence is scanned frame by frame for the first
ATG, and the suffix from that ATG, trimmed to whole codons, is translated;
with no ATG the whole trimmed sequence is translated from position 0, and
`(none, none)` is returned when even that is shorter than one codon. -/
def find_first_orf (raw : List Char) : Option Nat × Option (List Char) :=
  match (candidateIdx (pyUpper raw).length).find? (fun i => isATGhit (pyUpper raw) i) with
  | some i => (some i, some (dnaTranslate (trim3 ((pyUpper raw).drop i))))
  | none =>
    if 3 ≤ (trim3 (pyUpper raw)).length then
      (some 0, some (dnaTranslate (trim3 (pyUpper raw))))
    else (none, none)

theorem dnaTranslate_length : ∀ s : List Char, (dnaTranslate s).length = s.length / 3
  | [] => rfl
  | [_] => by simp [dnaTranslate]
  | [_, _] => by simp [dnaTranslate]
  | a :: b :: c :: rest => by
    have ih := dnaTranslate_length rest
    simp only [dnaTranslate, List.length_cons, ih]
    omega

theorem trim3_length (s : List Char) : (trim3 s).length = s.length - s.length % 3 := by
  rw [trim3, List.length_take, Nat.min_eq_left (Nat.sub_le _ _)]

theorem mem_frameIdx (n f i : Nat) : i ∈ frameIdx n f ↔ (i % 3 = f ∧ i + 2 < n) := by
  simp only [frameIdx, List.mem_filter, List.mem_range, Bool.and_eq_true, beq_iff_eq,
    decide_eq_true_eq]
  omega

theorem mem_candidateIdx (n i : Nat) : i ∈ candidateIdx n ↔ i + 2 < n := by
  simp only [candidateIdx, List.mem_append, mem_frameIdx]
  omega

theorem pairwise_frameIdx (n f : Nat) : (frameIdx n f).Pairwise (fun a b => a < b) :=
  List.Pairwise.sublist (List.filter_sublist _) (List.pairwise_lt_range n)

theorem pairwise_lex_candidateIdx (n : Nat) :
    (candidateIdx n).Pairwise (fun a b => a % 3 < b % 3 ∨ (a % 3 = b % 3 ∧ a < b)) := by
  have hframe : ∀ f, (frameIdx n f).Pairwise
      (fun a b => a % 3 < b % 3 ∨ (a % 3 = b % 3 ∧ a < b)) := by
    intro f
    apply List.Pairwise.imp_of_mem ?_ (pairwise_frameIdx n f)
    intro a b ha hb hab
    have ha3 : a % 3 = f := ((mem_frameIdx n f a).mp ha).1
    have hb3 : b % 3 = f := ((mem_frameIdx n f b).mp hb).1
    exact Or.inr ⟨by omega, hab⟩
  have hcross : ∀ f g, f < g → ∀ a ∈ frameIdx n f, ∀ b ∈ frameIdx n g,
      a % 3 < b % 3 ∨ (a % 3 = b % 3 ∧ a < b) := by
    intro f g hfg a ha b hb
    have ha3 := ((mem_frameIdx n f a).mp ha).1
    have hb3 := ((mem_frameIdx n g b).mp hb).1
    exact Or.inl (by omega)
  rw [candidateIdx, List.pairwise_append]
  refine ⟨?_, hframe 2, ?_⟩
  · rw [List.pairwise_append]
    exact ⟨hframe 0, hframe 1, hcross 0 1 (by omega)⟩
  · intro a ha b hb
    rcases List.mem_append.mp ha with ha1 | ha2
    · exact hcross 0 2 (by omega) a ha1 b hb
    · exact hcross 1 2 (by omega) a ha2 b hb

theorem find_first_of_pairwise {α : Type} {R : α → α → Prop} (l : List α) (p : α → Bool)
    (a : α) (hp : l.Pairwise R) (h : l.find? p = some a) :
    ∀ b ∈ l, p b = true → b = a ∨ R a b := by
  induction l with
  | nil => simp at h
  | cons x t ih =>
    by_cases hx : p x = true
    · rw [List.find?_cons_of_pos _ hx] at h
      injection h with h
      subst h
      intro b hb hpb
      rcases List.mem_cons.mp hb with h1 | h1
      · exact Or.inl h1
      · exact Or.inr ((List.pairwise_cons.mp hp).1 b h1)
    · rw [List.find?_cons_of_neg _ hx] at h
      intro b hb hpb
      rcases List.mem_cons.mp hb with h1 | h1
      · subst h1
        exact absurd hpb hx
      · exact ih (List.pairwise_cons.mp hp).2 h b h1 hpb

theorem atgAt_hit {s : List Char} {i : Nat} (hi : i + 2 < s.length)
    (h : atgAt s i = true) : isATGhit s i = true := by
  rw [isATGhit, h, Bool.true_and, decide_eq_true_eq]
  omega

/-- C10: `find_first_orf` always returns, giving `(none, none)` exactly when
the sequence has fewer than 3 bases; otherwise it returns a start position
(an ATG position when the sequence has an in-bounds ATG, 0 otherwise) and a
protein whose length is the number of whole codons from that start. -/
theorem find_first_orf_total (raw : List Char)
    (hDNA : ∀ c ∈ raw, c.toUpper = 'A' ∨ c.toUpper = 'C' ∨ c.toUpper = 'G' ∨ c.toUpper = 'T') :
    (find_first_orf raw = (none, none) ↔ raw.length < 3) ∧
    (3 ≤ raw.length → ∃ p prot, find_first_orf raw = (some p, some prot) ∧
      prot.length = (raw.length - p) / 3 ∧
      ((∃ i, i + 2 < raw.length ∧ atgAt (pyUpper raw) i = true) →
          atgAt (pyUpper raw) p = true) ∧
      ((∀ i, i + 2 < raw.length → atgAt (pyUpper raw) i = false) → p = 0)) := by
  have hlen : (pyUpper raw).length = raw.length := List.length_map raw Char.toUpper
  cases hfind : (candidateIdx (pyUpper raw).length).find? (fun i => isATGhit (pyUpper raw) i) with
  | some i =>
    have heq : find_first_orf raw
        = (some i, some (dnaTranslate (trim3 ((pyUpper raw).drop i)))) := by
      rw [find_first_orf, hfind]
    have hmem : i ∈ candidateIdx (pyUpper raw).length := List.mem_of_find?_eq_some hfind
    have hi : i + 2 < raw.length := by
      have := (mem_candidateIdx _ i).mp hmem
      omega
    have hhit : isATGhit (pyUpper raw) i = true := List.find?_some hfind
    have hatg : atgAt (pyUpper raw) i = true := by
      rw [isATGhit, Bool.and_eq_true] at hhit
      exact hhit.1
    have hprotlen : (dnaTranslate (trim3 ((pyUpper raw).drop i))).length
        = (raw.length - i) / 3 := by
      rw [dnaTranslate_length, trim3_length, List.length_drop, hlen]
      omega
    refine ⟨?_, ?_⟩
    · rw [heq]
      constructor
      · intro hc
        simp at hc
      · intro h3
        omega
    · intro h3
      exact ⟨i, _, heq, hprotlen, fun _ => hatg,
        fun hno => by simp [hno i hi] at hatg⟩
  | none =>
    by_cases h3 : 3 ≤ (trim3 (pyUpper raw)).length
    · have heq : find_first_orf raw = (some 0, some (dnaTranslate (trim3 (pyUpper raw)))) := by
        rw [find_first_orf, hfind, if_pos h3]
      have hlen3 : 3 ≤ raw.length := by
        rw [trim3_length, hlen] at h3
        omega
      have hprotlen : (dnaTranslate (trim3 (pyUpper raw))).length = (raw.length - 0) / 3 := by
        rw [dnaTranslate_length, trim3_length, hlen]
        omega
      have hnoatg : ∀ j, j + 2 < raw.length → atgAt (pyUpper raw) j = false := by
        intro j hj
        by_contra hcon
        have hatg : atgAt (pyUpper raw) j = true := by
          cases hcase : atgAt (pyUpper raw) j
          · exact absurd hcase hcon
          · rfl
        have hmem : j ∈ candidateIdx (pyUpper raw).length :=
          (mem_candidateIdx _ j).mpr (by omega)
        exact (List.find?_eq_none.mp hfind j hmem) (atgAt_hit (by omega) hatg)
      refine ⟨?_, ?_⟩
      · rw [heq]
        constructor
        · intro hc
          simp at hc
        · intro hc
          omega
      · intro _
        refine ⟨0, _, heq, hprotlen, ?_, fun _ => rfl⟩
        intro hex
        obtain ⟨i, hi, hatg⟩ := hex
        rw [hnoatg i hi] at hatg
        simp at hatg
    · have heq : find_first_orf raw = (none, none) := by
        rw [find_first_orf, hfind, if_neg h3]
      have hsmall : raw.length < 3 := by
        rw [trim3_length, hlen] at h3
        omega
      refine ⟨?_, ?_⟩
      · rw [heq]
        exact ⟨fun _ => hsmall, fun _ => rfl⟩
      · intro hc
        omega

/-- The sequence ATGAAA used to instantiate the totality theorem. -/
def seqATGA : List Char := ['A', 'T', 'G', 'A', 'A', 'A']

/-- Concrete instance of the totality theorem on ATGAAA. -/
theorem find_first_orf_total_witness :
    (find_first_orf seqATGA = (none, none) ↔ seqATGA.length < 3) ∧
    (3 ≤ seqATGA.length → ∃ p prot, find_first_orf seqATGA = (some p, some prot) ∧
      prot.length = (seqATGA.length - p) / 3 ∧
      ((∃ i, i + 2 < seqATGA.length ∧ atgAt (pyUpper seqATGA) i = true) →
          atgAt (pyUpper seqATGA) p = true) ∧
      ((∀ i, i + 2 < seqATGA.length → atgAt (pyUpper seqATGA) i = false) → p = 0)) :=
  find_first_orf_total seqATGA (by decide)

/-- C1 (amended): when the sequence has an in-bounds ATG, `find_first_orf`
returns the ATG position minimal in reading-frame priority order — frames
0, 1, 2 are scanned in order and the smallest ATG position of the first frame
containing one wins, which need not be the globally smallest ATG index —
together with the translation of the whole-codon trimmed suffix from that
position. -/
theorem find_first_orf_first_atg (raw : List Char)
    (hDNA : ∀ c ∈ raw, c.toUpper = 'A' ∨ c.toUpper = 'C' ∨ c.toUpper = 'G' ∨ c.toUpper = 'T')
    (h : ∃ i, i + 2 < raw.length ∧ atgAt (pyUpper raw) i = true) :
    ∃ p, find_first_orf raw = (some p, some (dnaTranslate (trim3 ((pyUpper raw).drop p)))) ∧
      p + 2 < raw.length ∧ atgAt (pyUpper raw) p = true ∧
      (∀ j, j + 2 < raw.length → atgAt (pyUpper raw) j = true →
        p % 3 < j % 3 ∨ (p % 3 = j % 3 ∧ p ≤ j)) := by
  have hlen : (pyUpper raw).length = raw.length := List.length_map raw Char.toUpper
  obtain ⟨i0, hi0, hatg0⟩ := h
  cases hfind : (candidateIdx (pyUpper raw).length).find? (fun i => isATGhit (pyUpper raw) i) with
  | none =>
    exfalso
    have hmem : i0 ∈ candidateIdx (pyUpper raw).length :=
      (mem_candidateIdx _ i0).mpr (by omega)
    exact (List.find?_eq_none.mp hfind i0 hmem) (atgAt_hit (by omega) hatg0)
  | some p =>
    have heq : find_first_orf raw
        = (some p, some (dnaTranslate (trim3 ((pyUpper raw).drop p)))) := by
      rw [find_first_orf, hfind]
    have hmem : p ∈ candidateIdx (pyUpper raw).length := List.mem_of_find?_eq_some hfind
    have hp : p + 2 < raw.length := by
      have := (mem_candidateIdx _ p).mp hmem
      omega
    have hhit : isATGhit (pyUpper raw) p = true := List.find?_some hfind
    have hatg : atgAt (pyUpper raw) p = true := by
      rw [isATGhit, Bool.and_eq_true] at hhit
      exact hhit.1
    refine ⟨p, heq, hp, hatg, ?_⟩
    intro j hj hjatg
    have hjmem : j ∈ candidateIdx (pyUpper raw).length :=
      (mem_candidateIdx _ j).mpr (by omega)
    have hjhit : isATGhit (pyUpper raw) j = true := atgAt_hit (by omega) hjatg
    have hmin := find_first_of_pairwise (candidateIdx (pyUpper raw).length) _ p
      (pairwise_lex_candidateIdx _) hfind j hjmem hjhit
    rcases hmin with h1 | h2
    · subst h1
      exact Or.inr ⟨rfl, Nat.le_refl j⟩
    · rcases h2 with hl | ⟨he, hlt⟩
      · exact Or.inl hl
      · exact Or.inr ⟨he, Nat.le_of_lt hlt⟩

/-- The sequence AATGGGATG used for the C1 theorems: its globally smallest
ATG index is 1 (frame 1), while frame 0 has its first ATG at index 6. -/
def seqAATG : List Char := ['A', 'A', 'T', 'G', 'G', 'G', 'A', 'T', 'G']

/-- C1 counterexample: in AATGGGATG the smallest index at which ATG occurs is
1, but the scan returns position 6, the first ATG of frame 0. -/
theorem find_first_orf_global_first_cex :
    atgAt (pyUpper seqAATG) 1 = true ∧
    (∀ j, j < 1 → atgAt (pyUpper seqAATG) j = false) ∧
    (find_first_orf seqAATG).1 = some 6 ∧
    (find_first_orf seqAATG).1 ≠ some 1 := by decide

/-- Concrete instance of the frame-priority theorem on AATGGGATG. -/
theorem find_first_orf_first_atg_witness :
    ∃ p, find_first_orf seqAATG
          = (some p, some (dnaTranslate (trim3 ((pyUpper seqAATG).drop p)))) ∧
      p + 2 < seqAATG.length ∧ atgAt (pyUpper seqAATG) p = true ∧
      (∀ j, j + 2 < seqAATG.length → atgAt (pyUpper seqAATG) j = true →
        p % 3 < j % 3 ∨ (p % 3 = j % 3 ∧ p ≤ j)) :=
  find_first_orf_first_atg seqAATG (by decide) ⟨1, by decide, by decide⟩
